import Mathlib

/-!
# Verification of the cmap parser and character-map query engine

Shallow embedding of (and proofs about) `vcl/source/font/fontcharmap.cxx`:
the `ParseCMAP` table parser, the `ImplFontCharMap`/`FontCharMap` data model
and its query methods (`findRangeIndex`, `GetGlyphIndex`, `HasChar`,
`GetIndexFromChar`, `GetCharFromIndex`), and the default-map construction
(`ImplFontCharMap::getDefaultMap`).

Modelling conventions:
* the byte buffer is a `List Nat` whose entries are the bytes (each < 256 by
  the binding contract) and whose length plays the role of `nLength`; the
  separate `nullptr` case of `pCmap` is modelled by an `Option` wrapper;
* buffer reads go through a monad that distinguishes an out-of-bounds read
  (`PErr.oob`, which the C code must never perform) from the parser's own
  ordinary failure result `false` (`PErr.fail`);
* machine integers are modelled as `Nat`/`Int`; the places where the C code
  truncates or wraps (`& 0xFFFF`, `static_cast<sal_uInt16>`, the
  `unsigned -> int` conversions of `GetUInt` results) carry an explicit
  `% 2^16` / signed reinterpretation `toInt32`;
* the `rtl_TextToUnicodeConverter` used by the recoding path lives outside
  this repository's sources; it is abstracted as an oracle function, see
  `cmapFinish`.
-/

/-- Failure kinds of the embedded parser: `oob` marks a read outside
`[pCmap, pCmap + nLength)` (never performed by the code, see the theorems
below), `fail` is the ordinary `return false` of `ParseCMAP`. -/
inductive PErr
  | oob
  | fail
deriving DecidableEq

/-- Parser monad: a value or a `PErr`. -/
abbrev PM (α : Type) : Type := Except PErr α

/-- `GetUInt`/`GetUShort` read big-endian; a single byte fetch, guarded by the
buffer bound. -/
def rdU8 (b : List Nat) (i : Nat) : PM Nat :=
  if i < b.length then .ok (b.getD i 0) else .error .oob

/-- `GetUShort( p )`: big-endian 16-bit read. -/
def rdU16 (b : List Nat) (i : Nat) : PM Nat := do
  let hi ← rdU8 b i
  let lo ← rdU8 b (i + 1)
  pure (256 * hi + lo)

/-- `GetUInt( p )`: big-endian 32-bit read. -/
def rdU32 (b : List Nat) (i : Nat) : PM Nat := do
  let b0 ← rdU8 b i
  let b1 ← rdU8 b (i + 1)
  let b2 ← rdU8 b (i + 2)
  let b3 ← rdU8 b (i + 3)
  pure (16777216 * b0 + 65536 * b1 + 256 * b2 + b3)

/-- `GetSShort( p )`: big-endian 16-bit read reinterpreted as `sal_Int16`. -/
def rdS16 (b : List Nat) (i : Nat) : PM Int := do
  let v ← rdU16 b i
  pure (if v < 32768 then (v : Int) else (v : Int) - 65536)

/-- Reinterpretation of a 32-bit unsigned value as a (two's complement)
signed `int`, as happens when a `GetUInt` result is stored in an `int`. -/
def toInt32 (v : Nat) : Int :=
  if v < 2147483648 then (v : Int) else (v : Int) - 4294967296

/-- The non-Unicode source encodings that `ParseCMAP` recodes from
(`eRecodeFrom`). -/
inductive TextEnc
  | unicode
  | shiftJis
  | gb18030
  | big5
  | ms949
  | ms1361
deriving DecidableEq

/-- State of the subtable-selection loop of `ParseCMAP`
(`eRecodeFrom`, `nOffset`, `nFormat`, `nBestVal`, `rResult.mbSymbolic`). -/
structure SelSt where
  recodeFrom : TextEnc
  offset : Nat
  format : Int
  bestVal : Nat
  symbolic : Bool
deriving DecidableEq

/-- The `switch( nPlatformEncoding )` of the selection loop: priority value,
source encoding, and whether the key marks the font symbolic. -/
def encValue (pe : Nat) : Nat × TextEnc × Bool :=
  if pe = 0x000 then (20, .unicode, false)
  else if pe = 0x001 then (21, .unicode, false)
  else if pe = 0x002 then (22, .unicode, false)
  else if pe = 0x003 then (23, .unicode, false)
  else if pe = 0x004 then (24, .unicode, false)
  else if pe = 0x100 then (22, .unicode, false)
  else if pe = 0x103 then (23, .unicode, false)
  else if pe = 0x300 then (5, .unicode, true)
  else if pe = 0x301 then (28, .unicode, false)
  else if pe = 0x30A then (29, .unicode, false)
  else if pe = 0x302 then (11, .shiftJis, false)
  else if pe = 0x303 then (12, .gb18030, false)
  else if pe = 0x304 then (11, .big5, false)
  else if pe = 0x305 then (11, .ms949, false)
  else if pe = 0x306 then (11, .ms1361, false)
  else (0, .unicode, false)

/-- The subtable selection loop of `ParseCMAP`
(`for( const unsigned char* p = pCmap + 4; --nSubTables >= 0; p += 8 )`).
`n` is the remaining subtable count, `p` the current record position. -/
def selLoop (b : List Nat) : Nat → Nat → SelSt → PM SelSt
  | 0, _, st => .ok st
  | n + 1, p, st => do
    let plat ← rdU16 b p
    let enc ← rdU16 b (p + 2)
    let v := encValue (256 * plat + enc)
    let st1 : SelSt := { st with symbolic := st.symbolic || v.2.2 }
    if v.1 = 0 then
      selLoop b n (p + 8) st1
    else do
      let offRaw ← rdU32 b (p + 4)
      let tmpOff : Int := toInt32 offRaw
      if (b.length : Int) - 2 < tmpOff ∨ tmpOff < 0 then
        selLoop b n (p + 8) st1
      else do
        let fmt ← rdU16 b tmpOff.toNat
        if fmt = 12 then
          (if st1.bestVal < v.1 + 3 then
            selLoop b n (p + 8)
              { st1 with recodeFrom := v.2.1, offset := tmpOff.toNat,
                         format := 12, bestVal := v.1 + 3 }
          else
            selLoop b n (p + 8) st1)
        else if fmt = 4 then
          (if st1.bestVal < v.1 then
            selLoop b n (p + 8)
              { st1 with recodeFrom := v.2.1, offset := tmpOff.toNat,
                         format := 4, bestVal := v.1 }
          else
            selLoop b n (p + 8) st1)
        else
          selLoop b n (p + 8) st1

/-- Header validation of `ParseCMAP` (`nLength >= 24`, version word `0`,
`0 < nSubTables <= (nLength - 24) / 8`); returns `nSubTables`. -/
def checkHeader (b : List Nat) : PM Nat :=
  if b.length < 24 then .error .fail
  else do
    let ver ← rdU16 b 0
    if ver ≠ 0 then .error .fail
    else do
      let n ← rdU16 b 2
      if n = 0 ∨ (b.length - 24) / 8 < n then .error .fail else .ok n

/-- The clamped format-4 range count: `nSegCountX2/2 - 1`, clamped down to the
number of range-offset records that fit in the rest of the buffer. -/
def f4RangeCount (len off seg2 : Nat) : Nat :=
  min (seg2 / 2 - 1) ((len - (off + 16 + 3 * seg2)) / 2)

/-- The clamped format-12 group count: `GetUInt` result, treated as an `int`
(negative means `0`), clamped down to the number of 12-byte groups that fit. -/
def f12RangeCount (len off declared : Nat) : Nat :=
  min (if declared < 2147483648 then declared else 0) ((len - (off + 16)) / 12)

/-- Inner scan of an indirect format-4 segment: reads `n` consecutive 16-bit
glyph ids at `ptr` and applies `+ nGlyphDelta` truncated to `sal_uInt16`. -/
def f4Glyphs (b : List Nat) (delta : Int) : Nat → Nat → PM (List Nat)
  | _, 0 => .ok []
  | ptr, n + 1 => do
    let raw ← rdU16 b ptr
    let rest ← f4Glyphs b delta (ptr + 2) n
    pure ((((raw : Int) + delta) % 65536).toNat :: rest)

/-- The format-4 segment loop. `lB`/`bB`/`dB`/`oB` are `pLimitBase`,
`pBeginBase`, `pDeltaBase`, `pOffsetBase` as offsets into the buffer; `n` is
the remaining segment count, `i` the current segment index; the accumulators
are `pCodePairs`, `pStartGlyphs` and `aGlyphIdArray`.  A rejected segment
stops the loop, keeping what was accepted so far. -/
def f4Loop (b : List Nat) (lB bB dB oB : Nat) :
    Nat → Nat → List Nat → List Int → List Nat → PM (List Nat × List Int × List Nat)
  | 0, _, pairs, glyphs, gids => .ok (pairs, glyphs, gids)
  | n + 1, i, pairs, glyphs, gids => do
    let cMin ← rdU16 b (bB + 2 * i)
    let cMax ← rdU16 b (lB + 2 * i)
    let delta ← rdS16 b (dB + 2 * i)
    let rOff ← rdU16 b (oB + 2 * i)
    if cMax < cMin then .ok (pairs, glyphs, gids)
    else if cMax = 0xFFFF then .ok (pairs, glyphs, gids)
    else if rOff = 0 then
      f4Loop b lB bB dB oB n (i + 1) (pairs ++ [cMin, cMax + 1])
        (glyphs ++ [((cMin : Int) + delta) % 65536]) gids
    else
      let ptr := oB + 2 * i + rOff
      let maxRec := (b.length - ptr) / 2
      if maxRec = 0 then .ok (pairs, glyphs, gids)
      else if cMin + maxRec - 1 < cMax then .ok (pairs, glyphs, gids)
      else do
        let newIds ← f4Glyphs b delta ptr (cMax - cMin + 1)
        f4Loop b lB bB dB oB n (i + 1) (pairs ++ [cMin, cMax + 1])
          (glyphs ++ [-(gids.length : Int)]) (gids ++ newIds)

/-- The format-12 group loop: 12-byte groups `(startChar, endChar, glyphId)`
at `gB = pCmap + nOffset + 16`. -/
def f12Loop (b : List Nat) (gB : Nat) :
    Nat → Nat → List Nat → List Int → PM (List Nat × List Int)
  | 0, _, pairs, glyphs => .ok (pairs, glyphs)
  | n + 1, i, pairs, glyphs => do
    let cMin ← rdU32 b (gB + 12 * i)
    let cMax ← rdU32 b (gB + 12 * i + 4)
    let gId ← rdU32 b (gB + 12 * i + 8)
    if cMax < cMin then .ok (pairs, glyphs)
    else f12Loop b gB n (i + 1) (pairs ++ [cMin, cMax + 1]) (glyphs ++ [toInt32 gId])

/-- Dispatch on the selected subtable format.  Mirrors the two
`if( (nFormat == 4/12) && ((nOffset+16) < nLength) )` branches; when neither
applies the accumulators keep their initial values (`aGlyphIdArray` is seeded
with the single `0` entry pushed before the branches). -/
def parseSubtable (b : List Nat) (st : SelSt) : PM (List Nat × List Int × List Nat) :=
  if st.format = 4 ∧ st.offset + 16 < b.length then do
    let seg2 ← rdU16 b (st.offset + 6)
    f4Loop b (st.offset + 14) (st.offset + 16 + seg2) (st.offset + 16 + 2 * seg2)
      (st.offset + 16 + 3 * seg2) (f4RangeCount b.length st.offset seg2) 0 [] [] [0]
  else if st.format = 12 ∧ st.offset + 16 < b.length then do
    let declared ← rdU32 b (st.offset + 12)
    let pg ← f12Loop b (st.offset + 16) (f12RangeCount b.length st.offset declared) 0 [] []
    pure (pg.1, pg.2, [0])
  else .ok ([], [], [0])

/-- Byte emission of the recoding path for a single code point `c`:
a high byte for `c >= 0x100`, a low byte for `c >= 0x100` or `c < 0xA0`
(code points in `[0xA0, 0x100)` emit nothing). -/
def charBytes (c : Nat) : List Nat :=
  (if 0x100 ≤ c then [c / 256 % 256] else []) ++
    (if 0x100 ≤ c ∨ c < 0xA0 then [c % 256] else [])

/-- Bytes fed to the converter for one range `[cMin, cEnd)` (code points above
`SAL_MAX_UINT16` are not converted). -/
def rangeBytes (cMin cEnd : Nat) : List Nat :=
  (List.range (min cEnd 0x10000 - cMin)).flatMap (fun j => charBytes (cMin + j))

/-- Bytes fed to the converter for the whole code-pair list. -/
def recodeBytes : List Nat → List Nat
  | cMin :: cEnd :: rest => rangeBytes cMin cEnd ++ recodeBytes rest
  | _ => []

/-- Ordered insertion without duplicates (`o3tl::sorted_vector::insert`). -/
def insSorted (v : Nat) : List Nat → List Nat
  | [] => [v]
  | x :: xs =>
    if v < x then v :: x :: xs
    else if v = x then x :: xs
    else x :: insSorted v xs

/-- The `aSupportedCodePoints` sorted set built from the converter output. -/
def sortedDedup (l : List Nat) : List Nat :=
  l.foldl (fun s v => insSorted v s) []

/-- One step of the run-merging loop that converts the sorted code-point set
back into boundary pairs (`aSupportedRanges`). -/
def addCodePoint (acc : List Nat) (v : Nat) : List Nat :=
  if acc = [] ∨ acc.getLast? ≠ some v then acc ++ [v, v + 1]
  else acc.dropLast ++ [v + 1]

/-- `aSupportedRanges` from the sorted code-point set. -/
def mergeRuns (l : List Nat) : List Nat :=
  l.foldl addCodePoint []

/-- Result record of `ParseCMAP` (`CmapResult`).  `mnRangeCount` is kept
implicitly: it always equals `rangeCodes.length / 2` for every result built
here.  `startGlyphs = none` / `glyphIds = none` model the null pointers. -/
structure CmapResult where
  rangeCodes : List Nat
  startGlyphs : Option (List Int)
  glyphIds : Option (List Nat)
  symbolic : Bool
  recoded : Bool
deriving DecidableEq

/-- Tail of `ParseCMAP` after the subtable branches: the
`nRangeCount <= 0` symbolic fallback / failure, the recoding of non-Unicode
ranges, and the assembly of the result record.

Modelled from the spec: the `rtl_TextToUnicodeConverter` (created outside this
repository's sources) is abstracted as the oracle `conv`, mapping the byte
stream of `recodeBytes` to the emitted Unicode code units; converter creation
is assumed to succeed, and the 64-byte chunking of the conversion calls (which
only affects the converter's internal context) is folded into one call. -/
def cmapFinish (pairs : List Nat) (glyphs : List Int) (gids : List Nat)
    (symbolic : Bool) (recodeFrom : TextEnc) (conv : List Nat → List Nat) :
    PM CmapResult :=
  if pairs.length / 2 = 0 then
    (if symbolic then
      .ok { rangeCodes := [0x0020, 0x0100, 0xF020, 0xF100], startGlyphs := none,
            glyphIds := none, symbolic := symbolic, recoded := false }
    else .error .fail)
  else if recodeFrom ≠ TextEnc.unicode then
    let rngs := mergeRuns (sortedDedup (conv (recodeBytes pairs)))
    if rngs.length / 2 = 0 then .error .fail
    else
      .ok { rangeCodes := rngs, startGlyphs := none, glyphIds := none,
            symbolic := symbolic, recoded := true }
  else
    .ok { rangeCodes := pairs, startGlyphs := some glyphs,
          glyphIds := if gids.isEmpty then none else some gids,
          symbolic := symbolic, recoded := false }

/-- `ParseCMAP` on a non-null buffer. -/
def parseBytes (b : List Nat) (conv : List Nat → List Nat) : PM CmapResult := do
  let nSub ← checkHeader b
  let st ← selLoop b nSub 4 ⟨TextEnc.unicode, 0, -1, 0, false⟩
  let acc ← parseSubtable b st
  cmapFinish acc.1 acc.2.1 acc.2.2 st.symbolic st.recodeFrom conv

/-- `ParseCMAP( pCmap, nLength, rResult )`: `none` models a null `pCmap`. -/
def ParseCMAP (cmap : Option (List Nat)) (conv : List Nat → List Nat) : PM CmapResult :=
  match cmap with
  | none => .error .fail
  | some b => parseBytes b conv

/-- A converter oracle for inputs that never reach the recoding path. -/
def noConv : List Nat → List Nat := fun _ => []

/-- Sum of the range widths, as accumulated by the `ImplFontCharMap`
constructor (`mnCharCount += cLast - cFirst`). -/
def rangeWidthSum : List Nat → Nat
  | cF :: cL :: rest => (cL - cF) + rangeWidthSum rest
  | _ => 0

/-- `ImplFontCharMap`.  `mnRangeCount` is represented implicitly as
`rangeCodes.length / 2` (every constructed map satisfies
`rangeCodes.length = 2 * mnRangeCount`). -/
structure ImplFontCharMap where
  rangeCodes : List Nat
  startGlyphs : Option (List Int)
  glyphIds : Option (List Nat)
  symbolic : Bool
  charCount : Nat
deriving DecidableEq

/-- The `ImplFontCharMap( const CmapResult& )` constructor. -/
def mkImplFontCharMap (cr : CmapResult) : ImplFontCharMap :=
  { rangeCodes := cr.rangeCodes, startGlyphs := cr.startGlyphs,
    glyphIds := cr.glyphIds, symbolic := cr.symbolic,
    charCount := rangeWidthSum cr.rangeCodes }

/-- `aDefaultUnicodeRanges`. -/
def aDefaultUnicodeRanges : List Nat := [0x0020, 0xD800, 0xE000, 0xFFF0]

/-- `aDefaultSymbolRanges`. -/
def aDefaultSymbolRanges : List Nat := [0x0020, 0x0100, 0xF020, 0xF100]

/-- Allocation state for default-map construction: a fresh-id counter models
object identity of `new ImplFontCharMap`, and
`g_pDefaultImplFontCharMap` is the process-wide global the function
overwrites. -/
structure DefaultMapState where
  nextId : Nat
  g_pDefaultImplFontCharMap : Option (Nat × ImplFontCharMap)
deriving DecidableEq

/-- `ImplFontCharMap::getDefaultMap( bool bSymbols )`: builds a `CmapResult`
over the static default range array, allocates a new `ImplFontCharMap` (fresh
identity), stores it in the global, and returns it. -/
def getDefaultMap (bSymbols : Bool) (s : DefaultMapState) :
    (Nat × ImplFontCharMap) × DefaultMapState :=
  let pRangeCodes := if bSymbols then aDefaultSymbolRanges else aDefaultUnicodeRanges
  let aDefaultCR : CmapResult :=
    { rangeCodes := pRangeCodes, startGlyphs := none, glyphIds := none,
      symbolic := bSymbols, recoded := false }
  let inst := (s.nextId, mkImplFontCharMap aDefaultCR)
  (inst, { nextId := s.nextId + 1, g_pDefaultImplFontCharMap := some inst })

/-- The loop of `FontCharMap::findRangeIndex`.  Each step either raises
`nLower` to `nMid` or lowers `nUpper` to `nMid - 1` and recomputes
`nMid = (nLower + nUpper + 1) / 2`; the fuel only bounds the iteration count
(`2 * mnRangeCount + 1` always suffices).  In every state reachable from the
entry point the `mid - 1` of the second branch is exact (there `1 ≤ mid`),
matching the C `int` arithmetic. -/
def frLoop (rc : List Nat) (c : Nat) : Nat → Nat → Nat → Nat → Nat
  | 0, _, _, mid => mid
  | fuel + 1, lower, upper, mid =>
    if lower < upper then
      (if rc.getD mid 0 ≤ c then
        frLoop rc c fuel mid upper ((mid + upper + 1) / 2)
      else
        frLoop rc c fuel lower (mid - 1) ((lower + mid) / 2))
    else mid

namespace FontCharMap

/-- `FontCharMap::findRangeIndex( sal_UCS4 )`. -/
def findRangeIndex (m : ImplFontCharMap) (c : Nat) : Nat :=
  let N := m.rangeCodes.length / 2
  frLoop m.rangeCodes c (2 * N + 1) 0 (2 * N - 1) N

end FontCharMap

/-- Glyph resolution for a code point already inside the range table
(the tail of `FontCharMap::GetGlyphIndex` after the aliasing block): `0` in a
gap, otherwise direct (`nStartIndex >= 0`) or indirect via `mpGlyphIds`. -/
def glyphStep (m : ImplFontCharMap) (sg : List Int) (c nR : Nat) : Int :=
  if nR % 2 = 1 then 0
  else
    let nGlyphIndex : Int := (c : Int) - (m.rangeCodes.getD nR 0 : Int)
    let nStartIndex : Int := sg.getD (nR / 2) 0
    if 0 ≤ nStartIndex then nGlyphIndex + nStartIndex
    else (((m.glyphIds.getD []).getD (nGlyphIndex - nStartIndex).toNat 0 : Nat) : Int)

namespace FontCharMap

/-- `FontCharMap::GetGlyphIndex( sal_UCS4 )`. -/
def GetGlyphIndex (m : ImplFontCharMap) (cChar : Nat) : Int :=
  match m.startGlyphs with
  | none => -1
  | some sg =>
    let rc := m.rangeCodes
    let nRange := findRangeIndex m cChar
    if nRange = 0 ∧ cChar < rc.getD 0 0 then
      (if cChar ≤ 0xFF ∧ 0xF000 ≤ rc.getD 0 0 ∧ rc.getD 1 0 ≤ 0xF0FF then
        let c2 := Nat.lor cChar 0xF000
        let nRange2 := findRangeIndex m c2
        if nRange2 = 0 ∧ c2 < rc.getD 0 0 then 0 else glyphStep m sg c2 nRange2
      else 0)
    else glyphStep m sg cChar nRange

/-- `FontCharMap::HasChar( sal_UCS4 )`. -/
def HasChar (m : ImplFontCharMap) (cChar : Nat) : Bool :=
  match m.startGlyphs with
  | none =>
    let nRange := findRangeIndex m cChar
    if nRange = 0 ∧ cChar < m.rangeCodes.getD 0 0 then false
    else decide (nRange % 2 = 0)
  | some _ => decide (GetGlyphIndex m cChar ≠ 0)

end FontCharMap

/-- The linear scan of `FontCharMap::GetIndexFromChar`, accumulating the
covered-character count until the range containing `c` is found. -/
def gifcLoop (c : Nat) : List Nat → Int → Int
  | cF :: cL :: rest, acc =>
    if cL ≤ c then gifcLoop c rest (acc + ((cL : Int) - (cF : Int)))
    else if cF ≤ c then acc + ((c : Int) - (cF : Int))
    else -1
  | _, _ => -1

/-- The linear scan of `FontCharMap::GetCharFromIndex`; the returned code
point is computed in `sal_UCS4` (32-bit) arithmetic. -/
def gcfiLoop : List Nat → Int → Option Nat
  | cF :: cL :: rest, n =>
    let n2 := n - ((cL : Int) - (cF : Int))
    if n2 < 0 then some ((((cL : Int) + n2) % 4294967296).toNat)
    else gcfiLoop rest n2
  | _, _ => none

namespace FontCharMap

/-- `FontCharMap::GetIndexFromChar( sal_UCS4 )` (`-1` means not covered). -/
def GetIndexFromChar (m : ImplFontCharMap) (c : Nat) : Int :=
  gifcLoop c m.rangeCodes 0

/-- `FontCharMap::GetCharFromIndex( int )`; an out-of-bounds index falls back
to `mpRangeCodes[0]`. -/
def GetCharFromIndex (m : ImplFontCharMap) (n : Int) : Nat :=
  (gcfiLoop m.rangeCodes n).getD (m.rangeCodes.getD 0 0)

end FontCharMap

/-- Boolean test that a boundary list is strictly increasing. -/
def boundariesSorted : List Nat → Bool
  | a :: b :: rest => if a < b then boundariesSorted (b :: rest) else false
  | _ => true

/-- Boolean test that `c` lies inside some half-open range of the boundary
list. -/
def inSomeRange : List Nat → Nat → Bool
  | cF :: cL :: rest, c => if cF ≤ c ∧ c < cL then true else inSomeRange rest c
  | _, _ => false

/-! ## Concrete inputs used by the example and counterexample theorems -/

/-- A minimal well-formed cmap table: one Windows/UCS-2 format-4 subtable with
the single segment `start = end = 0x41`, `delta = 0`, `rangeOffset = 0`. -/
def c10bytes : List Nat :=
  [0x00,0x00, 0x00,0x01,
   0x00,0x03, 0x00,0x01, 0x00,0x00,0x00,0x0C,
   0x00,0x04, 0x00,0x00, 0x00,0x00, 0x00,0x04, 0x00,0x00, 0x00,0x00, 0x00,0x00,
   0x00,0x41, 0xFF,0xFF,
   0x00,0x00,
   0x00,0x41, 0xFF,0xFF,
   0x00,0x00, 0x00,0x01,
   0x00,0x00, 0x00,0x00]

/-- The parse result of `c10bytes`. -/
def c10res : CmapResult :=
  { rangeCodes := [0x41, 0x42], startGlyphs := some [0x41],
    glyphIds := some [0], symbolic := false, recoded := false }

/-- Same table as `c10bytes` but with the single segment
`start = 0xF020, end = 0xF041`: a non-symbolic map whose only range sits in
the `0xF0xx` private-use block. -/
def cAliasBytes : List Nat :=
  [0x00,0x00, 0x00,0x01,
   0x00,0x03, 0x00,0x01, 0x00,0x00,0x00,0x0C,
   0x00,0x04, 0x00,0x00, 0x00,0x00, 0x00,0x04, 0x00,0x00, 0x00,0x00, 0x00,0x00,
   0xF0,0x41, 0xFF,0xFF,
   0x00,0x00,
   0xF0,0x20, 0xFF,0xFF,
   0x00,0x00, 0x00,0x01,
   0x00,0x00, 0x00,0x00]

/-- The parse result of `cAliasBytes`. -/
def cAliasRes : CmapResult :=
  { rangeCodes := [0xF020, 0xF042], startGlyphs := some [0xF020],
    glyphIds := some [0], symbolic := false, recoded := false }

/-- A table whose only subtable is Windows/Symbol (setting the symbolic flag)
and whose format-4 content has `segCountX2 = 2`, hence zero ranges. -/
def c9SymBytes : List Nat :=
  [0x00,0x00, 0x00,0x01,
   0x00,0x03, 0x00,0x00, 0x00,0x00,0x00,0x0C,
   0x00,0x04, 0x00,0x00, 0x00,0x00, 0x00,0x02,
   0x00,0x00, 0x00,0x00, 0x00,0x00, 0x00,0x00, 0x00,0x00, 0x00,0x00]

/-- Same as `c9SymBytes` but with a Unicode/UCS-2 (non-symbolic) subtable
record. -/
def c9NonSymBytes : List Nat :=
  [0x00,0x00, 0x00,0x01,
   0x00,0x00, 0x00,0x03, 0x00,0x00,0x00,0x0C,
   0x00,0x04, 0x00,0x00, 0x00,0x00, 0x00,0x02,
   0x00,0x00, 0x00,0x00, 0x00,0x00, 0x00,0x00, 0x00,0x00, 0x00,0x00]

/-- The symbolic-fallback parse result (of `c9SymBytes`). -/
def c9res : CmapResult :=
  { rangeCodes := [0x0020, 0x0100, 0xF020, 0xF100], startGlyphs := none,
    glyphIds := none, symbolic := true, recoded := false }

/-- A format-4 table with two decreasing, non-overlapping segments
`[0x50, 0x60]` and `[0x10, 0x20]` (in that order): `ParseCMAP` accepts both
without checking their order. -/
def c6bytes : List Nat :=
  [0x00,0x00, 0x00,0x01,
   0x00,0x03, 0x00,0x01, 0x00,0x00,0x00,0x0C,
   0x00,0x04, 0x00,0x00, 0x00,0x00, 0x00,0x06, 0x00,0x00, 0x00,0x00, 0x00,0x00,
   0x00,0x60, 0x00,0x20, 0xFF,0xFF,
   0x00,0x00,
   0x00,0x50, 0x00,0x10, 0xFF,0xFF,
   0x00,0x00, 0x00,0x00, 0x00,0x00,
   0x00,0x00, 0x00,0x00, 0x00,0x00]

/-- The parse result of `c6bytes`: a successful parse whose boundary sequence
is not increasing. -/
def c6res : CmapResult :=
  { rangeCodes := [0x50, 0x61, 0x10, 0x21], startGlyphs := some [0x50, 0x10],
    glyphIds := some [0], symbolic := false, recoded := false }

/-- Same table as `c10bytes` but declared as Windows/ShiftJIS (platform 3,
encoding 2), so the recoding path runs. -/
def recBytes : List Nat :=
  [0x00,0x00, 0x00,0x01,
   0x00,0x03, 0x00,0x02, 0x00,0x00,0x00,0x0C,
   0x00,0x04, 0x00,0x00, 0x00,0x00, 0x00,0x04, 0x00,0x00, 0x00,0x00, 0x00,0x00,
   0x00,0x41, 0xFF,0xFF,
   0x00,0x00,
   0x00,0x41, 0xFF,0xFF,
   0x00,0x00, 0x00,0x01,
   0x00,0x00, 0x00,0x00]

/-- A converter oracle for `recBytes` mapping its one-byte stream to the
single code unit `0x30A0`. -/
def testConv : List Nat → List Nat := fun _ => [0x30A0]

/-- The parse result of `recBytes` under `testConv`: glyph data discarded. -/
def recRes : CmapResult :=
  { rangeCodes := [0x30A0, 0x30A1], startGlyphs := none, glyphIds := none,
    symbolic := false, recoded := true }

/-- A ranges-only map with the single range `[0x20, 0x100)`. -/
def m5Impl : ImplFontCharMap :=
  { rangeCodes := [0x20, 0x100], startGlyphs := none, glyphIds := none,
    symbolic := false, charCount := 0xE0 }

/-! ## Basic lemmas: parser monad and byte readers -/

theorem pm_bind_ok {α β : Type} (a : α) (f : α → PM β) :
    (Except.ok a : PM α) >>= f = f a := rfl

theorem pm_bind_err {α β : Type} (e : PErr) (f : α → PM β) :
    (Except.error e : PM α) >>= f = Except.error e := rfl

theorem pm_ok_of_bind {α β : Type} {m : PM α} {f : α → PM β} {r : β}
    (h : m >>= f = .ok r) : ∃ a, m = .ok a ∧ f a = .ok r := by
  cases m with
  | ok a => exact ⟨a, rfl, h⟩
  | error e => rw [pm_bind_err] at h; exact Except.noConfusion h

theorem rdU8_ok {b : List Nat} {i : Nat} (h : i < b.length) :
    rdU8 b i = .ok (b.getD i 0) := by
  simp [rdU8, h]

theorem rdU16_ok {b : List Nat} {i : Nat} (h : i + 1 < b.length) :
    rdU16 b i = .ok (256 * b.getD i 0 + b.getD (i + 1) 0) := by
  have h0 : i < b.length := by omega
  simp [rdU16, rdU8_ok h0, rdU8_ok h, pm_bind_ok]

theorem rdU32_ok {b : List Nat} {i : Nat} (h : i + 3 < b.length) :
    rdU32 b i = .ok (16777216 * b.getD i 0 + 65536 * b.getD (i + 1) 0 +
      256 * b.getD (i + 2) 0 + b.getD (i + 3) 0) := by
  have h0 : i < b.length := by omega
  have h1 : i + 1 < b.length := by omega
  have h2 : i + 2 < b.length := by omega
  simp [rdU32, rdU8_ok h0, rdU8_ok h1, rdU8_ok h2, rdU8_ok h, pm_bind_ok]

theorem rdS16_ok {b : List Nat} {i : Nat} (h : i + 1 < b.length) :
    rdS16 b i = .ok
      (if 256 * b.getD i 0 + b.getD (i + 1) 0 < 32768 then
        ((256 * b.getD i 0 + b.getD (i + 1) 0 : Nat) : Int)
      else ((256 * b.getD i 0 + b.getD (i + 1) 0 : Nat) : Int) - 65536) := by
  simp [rdS16, rdU16_ok h, pm_bind_ok]

/-! ## The binary search `findRangeIndex` -/

theorem frLoop_spec (rc : List Nat) (c : Nat) :
    ∀ fuel lower upper, lower ≤ upper → upper + 1 ≤ rc.length →
    upper - lower < fuel →
    (lower = 0 ∨ rc.getD lower 0 ≤ c) →
    (upper + 1 = rc.length ∨ c < rc.getD (upper + 1) 0) →
    lower ≤ frLoop rc c fuel lower upper ((lower + upper + 1) / 2) ∧
    frLoop rc c fuel lower upper ((lower + upper + 1) / 2) ≤ upper ∧
    (frLoop rc c fuel lower upper ((lower + upper + 1) / 2) = 0 ∨
      rc.getD (frLoop rc c fuel lower upper ((lower + upper + 1) / 2)) 0 ≤ c) ∧
    (frLoop rc c fuel lower upper ((lower + upper + 1) / 2) + 1 = rc.length ∨
      c < rc.getD (frLoop rc c fuel lower upper ((lower + upper + 1) / 2) + 1) 0) := by
  intro fuel
  induction fuel with
  | zero =>
    intro lower upper _ _ h3 _ _
    exact absurd h3 (by omega)
  | succ fuel ih =>
    intro lower upper h1 h2 h3 h4 h5
    by_cases hlu : lower < upper
    · have hmid1 : lower + 1 ≤ (lower + upper + 1) / 2 := by omega
      have hmid2 : (lower + upper + 1) / 2 ≤ upper := by omega
      rw [frLoop, if_pos hlu]
      by_cases hc : rc.getD ((lower + upper + 1) / 2) 0 ≤ c
      · rw [if_pos hc]
        obtain ⟨a1, a2, a3, a4⟩ :=
          ih ((lower + upper + 1) / 2) upper hmid2 h2 (by omega) (Or.inr hc) h5
        exact ⟨by omega, a2, a3, a4⟩
      · rw [if_neg hc]
        have hx : (lower + (lower + upper + 1) / 2) / 2 =
            (lower + ((lower + upper + 1) / 2 - 1) + 1) / 2 := by omega
        rw [hx]
        have h5x : ((lower + upper + 1) / 2 - 1) + 1 = rc.length ∨
            c < rc.getD (((lower + upper + 1) / 2 - 1) + 1) 0 := by
          right
          rw [show (lower + upper + 1) / 2 - 1 + 1 = (lower + upper + 1) / 2 by omega]
          omega
        obtain ⟨a1, a2, a3, a4⟩ :=
          ih lower ((lower + upper + 1) / 2 - 1) (by omega) (by omega) (by omega) h4 h5x
        exact ⟨a1, by omega, a3, a4⟩
    · rw [frLoop, if_neg hlu]
      have hle : lower = upper := by omega
      have hm : (lower + upper + 1) / 2 = lower := by omega
      rw [hm]
      exact ⟨le_refl _, by omega, h4, by rw [hle]; exact h5⟩

theorem findRangeIndex_spec (m : ImplFontCharMap) (c : Nat)
    (h2 : 2 ≤ m.rangeCodes.length) (he : m.rangeCodes.length % 2 = 0) :
    FontCharMap.findRangeIndex m c + 1 ≤ m.rangeCodes.length ∧
    (FontCharMap.findRangeIndex m c = 0 ∨
      m.rangeCodes.getD (FontCharMap.findRangeIndex m c) 0 ≤ c) ∧
    (FontCharMap.findRangeIndex m c + 1 = m.rangeCodes.length ∨
      c < m.rangeCodes.getD (FontCharMap.findRangeIndex m c + 1) 0) := by
  have hN : 1 ≤ m.rangeCodes.length / 2 := by omega
  have hmid : m.rangeCodes.length / 2 =
      (0 + (2 * (m.rangeCodes.length / 2) - 1) + 1) / 2 := by omega
  have hfr : FontCharMap.findRangeIndex m c =
      frLoop m.rangeCodes c (2 * (m.rangeCodes.length / 2) + 1) 0
        (2 * (m.rangeCodes.length / 2) - 1) (m.rangeCodes.length / 2) := rfl
  have H := frLoop_spec m.rangeCodes c (2 * (m.rangeCodes.length / 2) + 1) 0
    (2 * (m.rangeCodes.length / 2) - 1) (by omega) (by omega) (by omega)
    (Or.inl rfl) (Or.inl (by omega))
  rw [← hmid] at H
  rw [hfr]
  exact ⟨by omega, H.2.2.1, by
    rcases H.2.2.2 with h | h
    · exact Or.inl (by omega)
    · exact Or.inr h⟩

/-! ## Sortedness of boundary lists -/

theorem boundariesSorted_cons {a b : Nat} {rest : List Nat}
    (h : boundariesSorted (a :: b :: rest) = true) :
    a < b ∧ boundariesSorted (b :: rest) = true := by
  by_cases hab : a < b
  · refine ⟨hab, ?_⟩
    rw [boundariesSorted, if_pos hab] at h
    exact h
  · rw [boundariesSorted, if_neg hab] at h
    exact Bool.noConfusion h

theorem sorted_getD_lt : ∀ (l : List Nat), boundariesSorted l = true →
    ∀ i j, i < j → j < l.length → l.getD i 0 < l.getD j 0 := by
  intro l
  induction l with
  | nil =>
    intro _ i j _ hj
    simp at hj
  | cons a tail ih =>
    intro hs i j hij hj
    cases tail with
    | nil =>
      simp at hj
      omega
    | cons b rest =>
      obtain ⟨hab, hs2⟩ := boundariesSorted_cons hs
      cases i with
      | zero =>
        cases j with
        | zero => omega
        | succ j2 =>
          rw [List.getD_cons_zero, List.getD_cons_succ]
          cases j2 with
          | zero => simpa using hab
          | succ j3 =>
            have hb : (b :: rest).getD 0 0 < (b :: rest).getD (j3 + 1 + 1 - 1) 0 := by
              apply ih hs2 0 (j3 + 1 + 1 - 1) (by omega)
              simp at hj ⊢
              omega
            rw [List.getD_cons_zero] at hb
            have : j3 + 1 + 1 - 1 = j3 + 1 := by omega
            rw [this] at hb
            omega
      | succ i2 =>
        cases j with
        | zero => omega
        | succ j2 =>
          rw [List.getD_cons_succ, List.getD_cons_succ]
          apply ih hs2 i2 j2 (by omega)
          simp at hj ⊢
          omega

theorem sorted_getD_le (l : List Nat) (hs : boundariesSorted l = true)
    {i j : Nat} (hij : i ≤ j) (hj : j < l.length) : l.getD i 0 ≤ l.getD j 0 := by
  rcases Nat.lt_or_ge i j with h | h
  · exact le_of_lt (sorted_getD_lt l hs i j h hj)
  · have : i = j := by omega
    rw [this]

/-! ## Containment in some range -/

theorem inSomeRange_iff : ∀ (l : List Nat) (c : Nat),
    inSomeRange l c = true ↔
      ∃ k, 2 * k + 1 < l.length ∧ l.getD (2 * k) 0 ≤ c ∧ c < l.getD (2 * k + 1) 0
  | [], c => by
    have h0 : inSomeRange [] c = false := rfl
    rw [h0]
    constructor
    · intro h; exact Bool.noConfusion h
    · rintro ⟨k, hk, -⟩; simp at hk
  | [a], c => by
    have h0 : inSomeRange [a] c = false := rfl
    rw [h0]
    constructor
    · intro h; exact Bool.noConfusion h
    · rintro ⟨k, hk, -⟩; simp at hk
  | cF :: cL :: rest, c => by
    have ihr := inSomeRange_iff rest c
    have h0 : inSomeRange (cF :: cL :: rest) c =
        if cF ≤ c ∧ c < cL then true else inSomeRange rest c := rfl
    rw [h0]
    by_cases hc : cF ≤ c ∧ c < cL
    · rw [if_pos hc]
      constructor
      · intro _
        refine ⟨0, by simp, ?_, ?_⟩
        · simpa using hc.1
        · simpa using hc.2
      · intro _; rfl
    · rw [if_neg hc]
      rw [ihr]
      constructor
      · rintro ⟨k, hk, hk1, hk2⟩
        refine ⟨k + 1, ?_, ?_, ?_⟩
        · simp at hk ⊢; omega
        · have h1 : 2 * (k + 1) = 2 * k + 1 + 1 := by omega
          rw [h1, List.getD_cons_succ, List.getD_cons_succ]
          exact hk1
        · have h1 : 2 * (k + 1) + 1 = 2 * k + 1 + 1 + 1 := by omega
          rw [h1, List.getD_cons_succ, List.getD_cons_succ]
          exact hk2
      · rintro ⟨k, hk, hk1, hk2⟩
        cases k with
        | zero =>
          exfalso
          apply hc
          constructor
          · simpa using hk1
          · simpa using hk2
        | succ k2 =>
          refine ⟨k2, ?_, ?_, ?_⟩
          · simp at hk ⊢; omega
          · have h1 : 2 * (k2 + 1) = 2 * k2 + 1 + 1 := by omega
            rw [h1, List.getD_cons_succ, List.getD_cons_succ] at hk1
            exact hk1
          · have h1 : 2 * (k2 + 1) + 1 = 2 * k2 + 1 + 1 + 1 := by omega
            rw [h1, List.getD_cons_succ, List.getD_cons_succ] at hk2
            exact hk2

/-! ## Parity characterization of `findRangeIndex` on sorted maps -/

theorem findRangeIndex_lt_first (m : ImplFontCharMap) (c : Nat)
    (hs : boundariesSorted m.rangeCodes = true)
    (h2 : 2 ≤ m.rangeCodes.length) (he : m.rangeCodes.length % 2 = 0)
    (hlt : c < m.rangeCodes.getD 0 0) :
    FontCharMap.findRangeIndex m c = 0 := by
  obtain ⟨hb, hd, -⟩ := findRangeIndex_spec m c h2 he
  rcases hd with h0 | hle
  · exact h0
  · by_cases hr0 : FontCharMap.findRangeIndex m c = 0
    · exact hr0
    · exfalso
      have := sorted_getD_lt m.rangeCodes hs 0 (FontCharMap.findRangeIndex m c)
        (by omega) (by omega)
      omega

theorem findRangeIndex_parity (m : ImplFontCharMap) (c : Nat)
    (hs : boundariesSorted m.rangeCodes = true)
    (h2 : 2 ≤ m.rangeCodes.length) (he : m.rangeCodes.length % 2 = 0)
    (hge : m.rangeCodes.getD 0 0 ≤ c) :
    (FontCharMap.findRangeIndex m c % 2 = 0 ↔ inSomeRange m.rangeCodes c = true) := by
  obtain ⟨hb, hd, hu⟩ := findRangeIndex_spec m c h2 he
  have hrc : m.rangeCodes.getD (FontCharMap.findRangeIndex m c) 0 ≤ c := by
    rcases hd with h0 | h
    · rw [h0]; exact hge
    · exact h
  constructor
  · intro hr
    have hlt : FontCharMap.findRangeIndex m c + 1 < m.rangeCodes.length := by
      rcases Nat.lt_or_ge (FontCharMap.findRangeIndex m c + 1) m.rangeCodes.length with h | h
      · exact h
      · omega
    have hup : c < m.rangeCodes.getD (FontCharMap.findRangeIndex m c + 1) 0 := by
      rcases hu with h | h
      · omega
      · exact h
    rw [inSomeRange_iff]
    refine ⟨FontCharMap.findRangeIndex m c / 2, ?_, ?_, ?_⟩
    · omega
    · rw [show 2 * (FontCharMap.findRangeIndex m c / 2) = FontCharMap.findRangeIndex m c
        by omega]
      exact hrc
    · rw [show 2 * (FontCharMap.findRangeIndex m c / 2) + 1 = FontCharMap.findRangeIndex m c + 1
        by omega]
      exact hup
  · intro hin
    rw [inSomeRange_iff] at hin
    obtain ⟨k, hk, hk1, hk2⟩ := hin
    have hge2 : 2 * k ≤ FontCharMap.findRangeIndex m c := by
      by_contra hcon
      have hr1 : FontCharMap.findRangeIndex m c + 1 ≤ 2 * k := by omega
      rcases hu with h | h
      · omega
      · have := sorted_getD_le m.rangeCodes hs hr1 (by omega)
        omega
    have hle2 : FontCharMap.findRangeIndex m c ≤ 2 * k := by
      by_contra hcon
      have hr1 : 2 * k + 1 ≤ FontCharMap.findRangeIndex m c := by omega
      have := sorted_getD_le m.rangeCodes hs hr1 (by omega)
      omega
    omega

/-! ## Round trip of `GetIndexFromChar` and `GetCharFromIndex` -/

theorem boundariesSorted_tail {a : Nat} {t : List Nat}
    (h : boundariesSorted (a :: t) = true) : boundariesSorted t = true := by
  cases t with
  | nil => rfl
  | cons b rest => exact (boundariesSorted_cons h).2

theorem inSomeRange_head_le : ∀ (a : Nat) (t : List Nat) (c : Nat),
    boundariesSorted (a :: t) = true → inSomeRange (a :: t) c = true → a ≤ c
  | a, [], c => by
    intro _ hin
    have h0 : inSomeRange [a] c = false := rfl
    rw [h0] at hin
    exact Bool.noConfusion hin
  | a, b :: rest, c => by
    intro hs hin
    obtain ⟨hab, hs2⟩ := boundariesSorted_cons hs
    have h0 : inSomeRange (a :: b :: rest) c =
        if a ≤ c ∧ c < b then true else inSomeRange rest c := rfl
    rw [h0] at hin
    by_cases h1 : a ≤ c ∧ c < b
    · exact h1.1
    · rw [if_neg h1] at hin
      cases rest with
      | nil =>
        have h2 : inSomeRange [] c = false := rfl
        rw [h2] at hin
        exact Bool.noConfusion hin
      | cons a2 t2 =>
        have hs3 := (boundariesSorted_cons hs2).2
        have hb2 := (boundariesSorted_cons hs2).1
        have := inSomeRange_head_le a2 t2 c hs3 hin
        omega

theorem gifc_ge : ∀ (ps : List Nat) (c : Nat) (acc : Int),
    boundariesSorted ps = true → inSomeRange ps c = true →
    acc ≤ gifcLoop c ps acc
  | [], c, acc => by
    intro _ hin
    exact absurd hin (by intro h; exact Bool.noConfusion h)
  | [x], c, acc => by
    intro _ hin
    exact absurd hin (by intro h; exact Bool.noConfusion h)
  | cF :: cL :: rest, c, acc => by
    intro hs hin
    obtain ⟨hcl, hs2⟩ := boundariesSorted_cons hs
    have h0 : gifcLoop c (cF :: cL :: rest) acc =
        if cL ≤ c then gifcLoop c rest (acc + ((cL : Int) - (cF : Int)))
        else if cF ≤ c then acc + ((c : Int) - (cF : Int))
        else -1 := rfl
    have hx : inSomeRange (cF :: cL :: rest) c =
        if cF ≤ c ∧ c < cL then true else inSomeRange rest c := rfl
    rw [h0]
    by_cases h1 : cL ≤ c
    · rw [if_pos h1]
      have hin2 : inSomeRange rest c = true := by
        rw [hx] at hin
        by_cases h2 : cF ≤ c ∧ c < cL
        · omega
        · rwa [if_neg h2] at hin
      have := gifc_ge rest c (acc + ((cL : Int) - (cF : Int)))
        (boundariesSorted_tail hs2) hin2
      omega
    · rw [if_neg h1]
      by_cases h2 : cF ≤ c
      · rw [if_pos h2]
        omega
      · exfalso
        rw [hx] at hin
        rw [if_neg (by omega)] at hin
        cases rest with
        | nil =>
          have h3 : inSomeRange [] c = false := rfl
          rw [h3] at hin
          exact Bool.noConfusion hin
        | cons a2 t2 =>
          have hs3 := (boundariesSorted_cons hs2).2
          have hb2 := (boundariesSorted_cons hs2).1
          have := inSomeRange_head_le a2 t2 c hs3 hin
          omega

theorem rt_aux : ∀ (ps : List Nat) (c : Nat) (acc : Int),
    boundariesSorted ps = true → (∀ x ∈ ps, x < 4294967296) →
    inSomeRange ps c = true →
    gcfiLoop ps (gifcLoop c ps acc - acc) = some c
  | [], c, acc => by
    intro _ _ hin
    exact absurd hin (by intro h; exact Bool.noConfusion h)
  | [x], c, acc => by
    intro _ _ hin
    exact absurd hin (by intro h; exact Bool.noConfusion h)
  | cF :: cL :: rest, c, acc => by
    intro hs hbd hin
    obtain ⟨hcl, hs2⟩ := boundariesSorted_cons hs
    have hcL32 : cL < 4294967296 := hbd cL (by simp)
    have h0 : gifcLoop c (cF :: cL :: rest) acc =
        if cL ≤ c then gifcLoop c rest (acc + ((cL : Int) - (cF : Int)))
        else if cF ≤ c then acc + ((c : Int) - (cF : Int))
        else -1 := rfl
    have hx : inSomeRange (cF :: cL :: rest) c =
        if cF ≤ c ∧ c < cL then true else inSomeRange rest c := rfl
    have hg : ∀ n : Int, gcfiLoop (cF :: cL :: rest) n =
        if n - ((cL : Int) - (cF : Int)) < 0 then
          some ((((cL : Int) + (n - ((cL : Int) - (cF : Int)))) % 4294967296).toNat)
        else gcfiLoop rest (n - ((cL : Int) - (cF : Int))) := fun n => rfl
    rw [h0, hg]
    by_cases h1 : cL ≤ c
    · rw [if_pos h1]
      have hin2 : inSomeRange rest c = true := by
        rw [hx] at hin
        by_cases h2 : cF ≤ c ∧ c < cL
        · omega
        · rwa [if_neg h2] at hin
      have hge := gifc_ge rest c (acc + ((cL : Int) - (cF : Int)))
        (boundariesSorted_tail hs2) hin2
      rw [if_neg (by omega)]
      have heq : gifcLoop c rest (acc + ((cL : Int) - (cF : Int))) - acc -
          ((cL : Int) - (cF : Int)) =
          gifcLoop c rest (acc + ((cL : Int) - (cF : Int))) -
            (acc + ((cL : Int) - (cF : Int))) := by omega
      rw [heq]
      exact rt_aux rest c (acc + ((cL : Int) - (cF : Int)))
        (boundariesSorted_tail hs2)
        (fun x hx2 => hbd x (by simp [hx2])) hin2
    · rw [if_neg h1]
      by_cases h2 : cF ≤ c
      · rw [if_pos h2]
        rw [if_pos (by omega)]
        congr 1
        omega
      · exfalso
        rw [hx] at hin
        rw [if_neg (by omega)] at hin
        cases rest with
        | nil =>
          have h3 : inSomeRange [] c = false := rfl
          rw [h3] at hin
          exact Bool.noConfusion hin
        | cons a2 t2 =>
          have hs3 := (boundariesSorted_cons hs2).2
          have hb2 := (boundariesSorted_cons hs2).1
          have := inSomeRange_head_le a2 t2 c hs3 hin
          omega

/-! ## The parser never reads out of bounds: stage-by-stage classification -/

theorem checkHeader_cases (b : List Nat) :
    (∃ n, checkHeader b = .ok n ∧ 24 ≤ b.length ∧
      256 * b.getD 0 0 + b.getD 1 0 = 0 ∧
      n = 256 * b.getD 2 0 + b.getD 3 0 ∧ 0 < n ∧ n ≤ (b.length - 24) / 8) ∨
    checkHeader b = .error .fail := by
  by_cases hl : b.length < 24
  · right
    simp only [checkHeader, if_pos hl]
  · have h0 : 0 + 1 < b.length := by omega
    have h2 : 2 + 1 < b.length := by omega
    simp only [checkHeader, if_neg hl, rdU16_ok h0, rdU16_ok h2, pm_bind_ok]
    by_cases hv : 256 * b.getD 0 0 + b.getD (0 + 1) 0 ≠ 0
    · right
      rw [if_pos hv]
    · rw [if_neg hv]
      by_cases hn : 256 * b.getD 2 0 + b.getD (2 + 1) 0 = 0 ∨
          (b.length - 24) / 8 < 256 * b.getD 2 0 + b.getD (2 + 1) 0
      · right
        rw [if_pos hn]
      · left
        refine ⟨256 * b.getD 2 0 + b.getD (2 + 1) 0, ?_, by omega, by simpa using hv, by norm_num, by omega, by omega⟩
        rw [if_neg hn]

theorem selLoop_ok (b : List Nat) :
    ∀ n p st, 8 * n ≤ b.length - (p + 20) →
    ∃ st2, selLoop b n p st = .ok st2 := by
  intro n
  induction n with
  | zero => intro p st _; exact ⟨st, rfl⟩
  | succ n ih =>
    intro p st h
    have hp0 : p + 1 < b.length := by omega
    have hp2 : p + 2 + 1 < b.length := by omega
    have hp4 : p + 4 + 3 < b.length := by omega
    simp only [selLoop, rdU16_ok hp0, rdU16_ok hp2, rdU32_ok hp4, pm_bind_ok]
    split
    · exact ih (p + 8) _ (by omega)
    · split
      · exact ih (p + 8) _ (by omega)
      · rename_i hoff
        have hoff2 : (toInt32 (16777216 * b.getD (p + 4) 0 + 65536 * b.getD (p + 4 + 1) 0 +
            256 * b.getD (p + 4 + 2) 0 + b.getD (p + 4 + 3) 0)).toNat + 1 < b.length := by
          rw [not_or] at hoff
          omega
        rw [rdU16_ok hoff2, pm_bind_ok]
        split
        · split
          · exact ih (p + 8) _ (by omega)
          · exact ih (p + 8) _ (by omega)
        · split
          · split
            · exact ih (p + 8) _ (by omega)
            · exact ih (p + 8) _ (by omega)
          · exact ih (p + 8) _ (by omega)

theorem f4Glyphs_ok (b : List Nat) (delta : Int) :
    ∀ n ptr, 2 * n ≤ b.length - ptr →
    ∃ l, f4Glyphs b delta ptr n = .ok l := by
  intro n
  induction n with
  | zero => intro ptr _; exact ⟨[], rfl⟩
  | succ n ih =>
    intro ptr h
    have hp : ptr + 1 < b.length := by omega
    obtain ⟨l, hl⟩ := ih (ptr + 2) (by omega)
    simp only [f4Glyphs, rdU16_ok hp, hl, pm_bind_ok]
    exact ⟨_, rfl⟩

theorem f4Glyphs_bind_ok {b : List Nat} {delta : Int} {n ptr : Nat} {β : Type}
    {f : List Nat → PM β} (h : 2 * n ≤ b.length - ptr)
    (hf : ∀ l, ∃ r, f l = .ok r) :
    ∃ r, (f4Glyphs b delta ptr n >>= f) = .ok r := by
  obtain ⟨l, hl⟩ := f4Glyphs_ok b delta n ptr h
  obtain ⟨r, hr⟩ := hf l
  exact ⟨r, by rw [hl, pm_bind_ok, hr]⟩

theorem f4Loop_ok (b : List Nat) (lB bB dB oB : Nat)
    (hlo : lB ≤ oB) (hbo : bB ≤ oB) (hdo : dB ≤ oB) :
    ∀ n i pairs glyphs gids, 2 * (i + n) ≤ b.length - oB →
    ∃ r, f4Loop b lB bB dB oB n i pairs glyphs gids = .ok r := by
  intro n
  induction n with
  | zero => intro i pairs glyphs gids _; exact ⟨_, rfl⟩
  | succ n ih =>
    intro i pairs glyphs gids h
    have hbB : bB + 2 * i + 1 < b.length := by omega
    have hlB : lB + 2 * i + 1 < b.length := by omega
    have hdB : dB + 2 * i + 1 < b.length := by omega
    have hoB : oB + 2 * i + 1 < b.length := by omega
    simp only [f4Loop, rdU16_ok hbB, rdU16_ok hlB, rdS16_ok hdB, rdU16_ok hoB, pm_bind_ok]
    split
    · exact ⟨_, rfl⟩
    · split
      · exact ⟨_, rfl⟩
      · split
        · exact ih (i + 1) _ _ _ (by omega)
        · split
          · exact ⟨_, rfl⟩
          · split
            · exact ⟨_, rfl⟩
            · apply f4Glyphs_bind_ok
              · omega
              · intro l
                exact ih (i + 1) _ _ _ (by omega)

theorem f12Loop_ok (b : List Nat) (gB : Nat) :
    ∀ n i pairs glyphs, 12 * (i + n) ≤ b.length - gB →
    ∃ r, f12Loop b gB n i pairs glyphs = .ok r := by
  intro n
  induction n with
  | zero => intro i pairs glyphs _; exact ⟨_, rfl⟩
  | succ n ih =>
    intro i pairs glyphs h
    have h0 : gB + 12 * i + 3 < b.length := by omega
    have h4 : gB + 12 * i + 4 + 3 < b.length := by omega
    have h8 : gB + 12 * i + 8 + 3 < b.length := by omega
    simp only [f12Loop, rdU32_ok h0, rdU32_ok h4, rdU32_ok h8, pm_bind_ok]
    split
    · exact ⟨_, rfl⟩
    · exact ih (i + 1) _ _ (by omega)

theorem f12Loop_bind_ok {b : List Nat} {gB n i : Nat} {pairs : List Nat}
    {glyphs : List Int} {β : Type} {f : List Nat × List Int → PM β}
    (h : 12 * (i + n) ≤ b.length - gB) (hf : ∀ pg, ∃ r, f pg = .ok r) :
    ∃ r, (f12Loop b gB n i pairs glyphs >>= f) = .ok r := by
  obtain ⟨pg, hpg⟩ := f12Loop_ok b gB n i pairs glyphs h
  obtain ⟨r, hr⟩ := hf pg
  exact ⟨r, by rw [hpg, pm_bind_ok, hr]⟩

theorem parseSubtable_ok (b : List Nat) (st : SelSt) :
    ∃ r, parseSubtable b st = .ok r := by
  by_cases h4 : st.format = 4 ∧ st.offset + 16 < b.length
  · have hseg : st.offset + 6 + 1 < b.length := by omega
    simp only [parseSubtable, if_pos h4, rdU16_ok hseg, pm_bind_ok]
    apply f4Loop_ok
    · omega
    · omega
    · omega
    · simp only [f4RangeCount]
      omega
  · by_cases h12 : st.format = 12 ∧ st.offset + 16 < b.length
    · have hdec : st.offset + 12 + 3 < b.length := by omega
      simp only [parseSubtable, if_neg h4, if_pos h12, rdU32_ok hdec, pm_bind_ok]
      apply f12Loop_bind_ok
      · simp only [f12RangeCount]
        omega
      · intro pg
        exact ⟨_, rfl⟩
    · simp only [parseSubtable, if_neg h4, if_neg h12]
      exact ⟨_, rfl⟩

theorem cmapFinish_cases (pairs : List Nat) (glyphs : List Int) (gids : List Nat)
    (symbolic : Bool) (recodeFrom : TextEnc) (conv : List Nat → List Nat) :
    (∃ r, cmapFinish pairs glyphs gids symbolic recodeFrom conv = .ok r) ∨
    cmapFinish pairs glyphs gids symbolic recodeFrom conv = .error .fail := by
  simp only [cmapFinish]
  split
  · split
    · exact Or.inl ⟨_, rfl⟩
    · exact Or.inr rfl
  · split
    · split
      · exact Or.inr rfl
      · exact Or.inl ⟨_, rfl⟩
    · exact Or.inl ⟨_, rfl⟩

theorem parseBytes_classify (b : List Nat) (conv : List Nat → List Nat) :
    (∃ r, parseBytes b conv = .ok r) ∨ parseBytes b conv = .error .fail := by
  rcases checkHeader_cases b with ⟨n, hok, hlen, -, -, -, hle⟩ | herr
  · simp only [parseBytes, hok, pm_bind_ok]
    obtain ⟨st2, hst⟩ := selLoop_ok b n 4 ⟨TextEnc.unicode, 0, -1, 0, false⟩ (by omega)
    rw [hst, pm_bind_ok]
    obtain ⟨acc, hacc⟩ := parseSubtable_ok b st2
    rw [hacc, pm_bind_ok]
    exact cmapFinish_cases acc.1 acc.2.1 acc.2.2 st2.symbolic st2.recodeFrom conv
  · right
    simp only [parseBytes, herr, pm_bind_err]

theorem ParseCMAP_classify (ob : Option (List Nat)) (conv : List Nat → List Nat) :
    (∃ r, ParseCMAP ob conv = .ok r) ∨ ParseCMAP ob conv = .error .fail := by
  cases ob with
  | none => exact Or.inr rfl
  | some b => exact parseBytes_classify b conv

/-! ## Shape of successful parse results -/

theorem f4Loop_pairs_even (b : List Nat) (lB bB dB oB : Nat) :
    ∀ n i pairs glyphs gids r,
    f4Loop b lB bB dB oB n i pairs glyphs gids = .ok r →
    r.1.length % 2 = pairs.length % 2 := by
  intro n
  induction n with
  | zero =>
    intro i pairs glyphs gids r h
    cases h
    rfl
  | succ n ih =>
    intro i pairs glyphs gids r h
    simp only [f4Loop] at h
    obtain ⟨cMin, -, h⟩ := pm_ok_of_bind h
    obtain ⟨cMax, -, h⟩ := pm_ok_of_bind h
    obtain ⟨delta, -, h⟩ := pm_ok_of_bind h
    obtain ⟨rOff, -, h⟩ := pm_ok_of_bind h
    split at h
    · cases h; rfl
    · split at h
      · cases h; rfl
      · split at h
        · have := ih (i + 1) _ _ _ _ h
          simpa using this
        · split at h
          · cases h; rfl
          · split at h
            · cases h; rfl
            · obtain ⟨newIds, -, h⟩ := pm_ok_of_bind h
              have := ih (i + 1) _ _ _ _ h
              simpa using this

theorem f12Loop_pairs_even (b : List Nat) (gB : Nat) :
    ∀ n i pairs glyphs r,
    f12Loop b gB n i pairs glyphs = .ok r →
    r.1.length % 2 = pairs.length % 2 := by
  intro n
  induction n with
  | zero =>
    intro i pairs glyphs r h
    cases h
    rfl
  | succ n ih =>
    intro i pairs glyphs r h
    simp only [f12Loop] at h
    obtain ⟨cMin, -, h⟩ := pm_ok_of_bind h
    obtain ⟨cMax, -, h⟩ := pm_ok_of_bind h
    obtain ⟨gId, -, h⟩ := pm_ok_of_bind h
    split at h
    · cases h; rfl
    · have := ih (i + 1) _ _ _ h
      simpa using this

theorem parseSubtable_pairs_even (b : List Nat) (st : SelSt)
    (acc : List Nat × List Int × List Nat)
    (h : parseSubtable b st = .ok acc) : acc.1.length % 2 = 0 := by
  by_cases h4 : st.format = 4 ∧ st.offset + 16 < b.length
  · simp only [parseSubtable, if_pos h4] at h
    obtain ⟨seg2, -, h⟩ := pm_ok_of_bind h
    have := f4Loop_pairs_even b _ _ _ _ _ _ _ _ _ _ h
    simpa using this
  · by_cases h12 : st.format = 12 ∧ st.offset + 16 < b.length
    · simp only [parseSubtable, if_neg h4, if_pos h12] at h
      obtain ⟨declared, -, h⟩ := pm_ok_of_bind h
      obtain ⟨pg, hpg, h⟩ := pm_ok_of_bind h
      cases h
      have := f12Loop_pairs_even b _ _ _ _ _ _ hpg
      simpa using this
    · simp only [parseSubtable, if_neg h4, if_neg h12] at h
      cases h
      rfl

theorem addCodePoint_length (acc : List Nat) (v : Nat) :
    (addCodePoint acc v).length % 2 = acc.length % 2 := by
  rw [addCodePoint]
  split
  · simp
  · rename_i hcond
    have hne : acc ≠ [] := by
      intro h
      exact hcond (Or.inl h)
    have hlen : 1 ≤ acc.length := by
      cases acc with
      | nil => exact absurd rfl hne
      | cons a t => simp
    simp [List.length_dropLast]
    omega

theorem foldl_addCodePoint_even (l : List Nat) :
    ∀ acc : List Nat, acc.length % 2 = 0 →
    (l.foldl addCodePoint acc).length % 2 = 0 := by
  induction l with
  | nil => intro acc h; simpa using h
  | cons v t ih =>
    intro acc h
    rw [List.foldl_cons]
    exact ih (addCodePoint acc v) (by rw [addCodePoint_length]; exact h)

theorem mergeRuns_even (l : List Nat) : (mergeRuns l).length % 2 = 0 :=
  foldl_addCodePoint_even l [] rfl

theorem cmapFinish_ok_shape (pairs : List Nat) (glyphs : List Int) (gids : List Nat)
    (symbolic : Bool) (recodeFrom : TextEnc) (conv : List Nat → List Nat)
    (r : CmapResult) (hp : pairs.length % 2 = 0)
    (h : cmapFinish pairs glyphs gids symbolic recodeFrom conv = .ok r) :
    r.rangeCodes.length % 2 = 0 ∧ (r.recoded = true → r.startGlyphs = none) := by
  simp only [cmapFinish] at h
  split at h
  · split at h
    · cases h
      exact ⟨by norm_num, fun hx => Bool.noConfusion hx⟩
    · exact Except.noConfusion h
  · split at h
    · split at h
      · exact Except.noConfusion h
      · cases h
        exact ⟨mergeRuns_even _, fun _ => rfl⟩
    · cases h
      exact ⟨hp, fun hx => Bool.noConfusion hx⟩

theorem parse_ok_decomp (ob : Option (List Nat)) (conv : List Nat → List Nat)
    (r : CmapResult) (h : ParseCMAP ob conv = .ok r) :
    ∃ b st acc, ob = some b ∧ parseSubtable b st = .ok acc ∧
      cmapFinish acc.1 acc.2.1 acc.2.2 st.symbolic st.recodeFrom conv = .ok r := by
  cases ob with
  | none => exact Except.noConfusion h
  | some b =>
    simp only [ParseCMAP, parseBytes] at h
    obtain ⟨n, -, h⟩ := pm_ok_of_bind h
    obtain ⟨st, -, h⟩ := pm_ok_of_bind h
    obtain ⟨acc, hacc, h⟩ := pm_ok_of_bind h
    exact ⟨b, st, acc, rfl, hacc, h⟩

theorem ParseCMAP_rangeCodes_even (ob : Option (List Nat)) (conv : List Nat → List Nat)
    (r : CmapResult) (h : ParseCMAP ob conv = .ok r) :
    r.rangeCodes.length % 2 = 0 := by
  obtain ⟨b, st, acc, -, hacc, hfin⟩ := parse_ok_decomp ob conv r h
  exact (cmapFinish_ok_shape acc.1 acc.2.1 acc.2.2 st.symbolic st.recodeFrom conv r
    (parseSubtable_pairs_even b st acc hacc) hfin).1

theorem ParseCMAP_recoded_noGlyphs (ob : Option (List Nat)) (conv : List Nat → List Nat)
    (r : CmapResult) (h : ParseCMAP ob conv = .ok r) (hrec : r.recoded = true) :
    r.startGlyphs = none := by
  obtain ⟨b, st, acc, -, hacc, hfin⟩ := parse_ok_decomp ob conv r h
  exact (cmapFinish_ok_shape acc.1 acc.2.1 acc.2.2 st.symbolic st.recodeFrom conv r
    (parseSubtable_pairs_even b st acc hacc) hfin).2 hrec

/-! ## Header-failure helpers and small arithmetic facts -/

theorem checkHeader_fail (b : List Nat)
    (h : b.length < 24 ∨ 256 * b.getD 0 0 + b.getD 1 0 ≠ 0 ∨
      256 * b.getD 2 0 + b.getD 3 0 = 0 ∨
      (b.length - 24) / 8 < 256 * b.getD 2 0 + b.getD 3 0) :
    checkHeader b = .error .fail := by
  rcases checkHeader_cases b with ⟨n, hok, hlen, hver, hn, hpos, hle⟩ | herr
  · exfalso
    rcases h with h | h | h | h <;> omega
  · exact herr

theorem parseBytes_header_fail (b : List Nat) (conv : List Nat → List Nat)
    (h : checkHeader b = .error .fail) : parseBytes b conv = .error .fail := by
  simp only [parseBytes, h, pm_bind_err]

theorem checkHeader_ok_facts (b : List Nat) (n : Nat) (h : checkHeader b = .ok n) :
    24 ≤ b.length ∧ 256 * b.getD 0 0 + b.getD 1 0 = 0 ∧
    n = 256 * b.getD 2 0 + b.getD 3 0 ∧ 0 < n ∧ n ≤ (b.length - 24) / 8 := by
  rcases checkHeader_cases b with ⟨n2, hok, hlen, hver, hn, hpos, hle⟩ | herr
  · have : n2 = n := by
      have := hok.symm.trans h
      exact Except.ok.inj this
    subst this
    exact ⟨hlen, hver, hn, hpos, hle⟩
  · rw [herr] at h
    exact Except.noConfusion h

set_option maxRecDepth 4096 in
theorem lor_small : ∀ d : Fin 256, Nat.lor d.val 61440 = d.val + 61440 := by decide

/-! ## Claim theorems -/

/-- Claim C5, amended: for a valid map (strictly increasing, even-length
boundary list), if `boundary[0] <= c` then `findRangeIndex(c)` is the greatest
index whose boundary is `<= c` and its parity decides containment; but for
`c < boundary[0]` the function returns `0` (an even index) although `c` lies
outside every range — callers must detect this case separately. -/
theorem C5_findRangeIndex_spec (m : ImplFontCharMap) (c : Nat)
    (hs : boundariesSorted m.rangeCodes = true)
    (he : m.rangeCodes.length % 2 = 0) (h2 : 2 ≤ m.rangeCodes.length) :
    (m.rangeCodes.getD 0 0 ≤ c →
      m.rangeCodes.getD (FontCharMap.findRangeIndex m c) 0 ≤ c ∧
      (FontCharMap.findRangeIndex m c + 1 = m.rangeCodes.length ∨
        c < m.rangeCodes.getD (FontCharMap.findRangeIndex m c + 1) 0) ∧
      (FontCharMap.findRangeIndex m c % 2 = 0 ↔ inSomeRange m.rangeCodes c = true)) ∧
    (c < m.rangeCodes.getD 0 0 → FontCharMap.findRangeIndex m c = 0) := by
  constructor
  · intro hge
    obtain ⟨hb, hd, hu⟩ := findRangeIndex_spec m c h2 he
    refine ⟨?_, hu, findRangeIndex_parity m c hs h2 he hge⟩
    rcases hd with h0 | h
    · rw [h0]; exact hge
    · exact h
  · intro hlt
    exact findRangeIndex_lt_first m c hs h2 he hlt

/-- Witness for C5 at the symbolic-fallback map and `c = 0x41`. -/
theorem C5_witness :
    (mkImplFontCharMap c9res).rangeCodes.getD
        (FontCharMap.findRangeIndex (mkImplFontCharMap c9res) 0x41) 0 ≤ 0x41 ∧
    (FontCharMap.findRangeIndex (mkImplFontCharMap c9res) 0x41 + 1 =
        (mkImplFontCharMap c9res).rangeCodes.length ∨
      0x41 < (mkImplFontCharMap c9res).rangeCodes.getD
        (FontCharMap.findRangeIndex (mkImplFontCharMap c9res) 0x41 + 1) 0) ∧
    (FontCharMap.findRangeIndex (mkImplFontCharMap c9res) 0x41 % 2 = 0 ↔
      inSomeRange (mkImplFontCharMap c9res).rangeCodes 0x41 = true) :=
  (C5_findRangeIndex_spec (mkImplFontCharMap c9res) 0x41 (by decide) (by decide)
    (by decide)).1 (by decide)

/-- Counterexample to C5 as stated: on the map with the single range
`[0x20, 0x100)` and `c = 0x10`, `findRangeIndex` returns `0` — an even index —
although `c` lies inside no range, and no index `m` with `boundary[m] <= c`
exists at all. -/
theorem C5_counterexample :
    FontCharMap.findRangeIndex m5Impl 0x10 = 0 ∧
    0 % 2 = 0 ∧
    inSomeRange m5Impl.rangeCodes 0x10 = false ∧
    decide (m5Impl.rangeCodes.getD 0 0 ≤ 0x10) = false := by decide

/-- Claim C4, amended: with Glyph Origin data present and `c` outside every
range of a valid map, the symbol-aliasing retry fires exactly when
`c <= 0xFF`, `rangeCodes[0] >= 0xF000` and `rangeCodes[1] <= 0xF0FF` — the
map's symbolic flag is not consulted — and then `glyphIndex(c)` equals
`glyphIndex(c | 0xF000)`; in every other outside-every-range case it
returns `0`. -/
theorem C4_glyphIndex_alias (m : ImplFontCharMap) (sg : List Int) (c : Nat)
    (hsg : m.startGlyphs = some sg)
    (hs : boundariesSorted m.rangeCodes = true)
    (he : m.rangeCodes.length % 2 = 0) (h2 : 2 ≤ m.rangeCodes.length)
    (hout : inSomeRange m.rangeCodes c = false) :
    FontCharMap.GetGlyphIndex m c =
      if c ≤ 0xFF ∧ 0xF000 ≤ m.rangeCodes.getD 0 0 ∧
          m.rangeCodes.getD 1 0 ≤ 0xF0FF then
        FontCharMap.GetGlyphIndex m (Nat.lor c 0xF000)
      else 0 := by
  rcases Nat.lt_or_ge c (m.rangeCodes.getD 0 0) with hlt | hge
  · have hr0 := findRangeIndex_lt_first m c hs h2 he hlt
    simp only [FontCharMap.GetGlyphIndex, hsg]
    rw [if_pos ⟨hr0, hlt⟩]
    by_cases hcond : c ≤ 0xFF ∧ 0xF000 ≤ m.rangeCodes.getD 0 0 ∧
        m.rangeCodes.getD 1 0 ≤ 0xF0FF
    · rw [if_pos hcond, if_pos hcond]
      have hadd : Nat.lor c 0xF000 = c + 61440 := lor_small ⟨c, by omega⟩
      have hnotle : ¬ (Nat.lor c 0xF000 ≤ 0xFF) := by omega
      by_cases hinner : FontCharMap.findRangeIndex m (Nat.lor c 0xF000) = 0 ∧
          Nat.lor c 0xF000 < m.rangeCodes.getD 0 0
      · rw [if_pos hinner, if_pos hinner, if_neg (fun hx => hnotle hx.1)]
      · rw [if_neg hinner, if_neg hinner]
    · rw [if_neg hcond, if_neg hcond]
  · have hodd : FontCharMap.findRangeIndex m c % 2 = 1 := by
      have hpar := findRangeIndex_parity m c hs h2 he hge
      by_cases hx : FontCharMap.findRangeIndex m c % 2 = 0
      · rw [hpar.mp hx] at hout
        exact Bool.noConfusion hout
      · omega
    simp only [FontCharMap.GetGlyphIndex, hsg]
    rw [if_neg (fun hx => absurd hx.2 (by omega))]
    rw [glyphStep, if_pos hodd]
    rw [if_neg (fun hx => by omega)]

/-- Witness for C4 at the parse result of `cAliasBytes` and `c = 0x21`. -/
theorem C4_witness :
    FontCharMap.GetGlyphIndex (mkImplFontCharMap cAliasRes) 0x21 =
      if 0x21 ≤ 0xFF ∧ 0xF000 ≤ (mkImplFontCharMap cAliasRes).rangeCodes.getD 0 0 ∧
          (mkImplFontCharMap cAliasRes).rangeCodes.getD 1 0 ≤ 0xF0FF then
        FontCharMap.GetGlyphIndex (mkImplFontCharMap cAliasRes) (Nat.lor 0x21 0xF000)
      else 0 :=
  C4_glyphIndex_alias (mkImplFontCharMap cAliasRes) [0xF020] 0x21 rfl (by decide)
    (by decide) (by decide) (by decide)

/-- Counterexample to C4 as stated: `cAliasBytes` parses to a map whose
symbolic flag is `false`, yet for `c = 0x21` — outside every range — the
aliasing retry still fires and `GetGlyphIndex` returns `0xF021`, not the `0`
the claim requires for non-symbolic maps. -/
theorem C4_counterexample :
    ParseCMAP (some cAliasBytes) noConv = .ok cAliasRes ∧
    cAliasRes.symbolic = false ∧
    cAliasRes.startGlyphs = some [0xF020] ∧
    inSomeRange cAliasRes.rangeCodes 0x21 = false ∧
    FontCharMap.GetGlyphIndex (mkImplFontCharMap cAliasRes) 0x21 = 0xF021 ∧
    decide (FontCharMap.GetGlyphIndex (mkImplFontCharMap cAliasRes) 0x21 = 0) = false := by
  refine ⟨?_, rfl, rfl, rfl, ?_, ?_⟩
  · rfl
  · rfl
  · rfl

/-- Claim C3, amended: the round trip
`GetCharFromIndex (GetIndexFromChar c) = c` holds for every `c` lying inside
some range of a valid map (for a map without Glyph Origin data this is
exactly `HasChar c`); with Glyph Origin data, `HasChar` can also accept
symbol-aliased code points outside every range, for which the round trip
fails. -/
theorem C3_roundTrip (m : ImplFontCharMap) (c : Nat)
    (hs : boundariesSorted m.rangeCodes = true)
    (hbd : ∀ x ∈ m.rangeCodes, x < 4294967296)
    (hin : inSomeRange m.rangeCodes c = true) :
    FontCharMap.GetCharFromIndex m (FontCharMap.GetIndexFromChar m c) = c := by
  have h := rt_aux m.rangeCodes c 0 hs hbd hin
  rw [FontCharMap.GetCharFromIndex, FontCharMap.GetIndexFromChar]
  rw [show gifcLoop c m.rangeCodes 0 = gifcLoop c m.rangeCodes 0 - 0 by omega, h]
  rfl

/-- Witness for C3 at the parse result of `c10bytes` and `c = 0x41`. -/
theorem C3_witness :
    FontCharMap.GetCharFromIndex (mkImplFontCharMap c10res)
      (FontCharMap.GetIndexFromChar (mkImplFontCharMap c10res) 0x41) = 0x41 :=
  C3_roundTrip (mkImplFontCharMap c10res) 0x41 (by decide) (by decide) (by decide)

/-- Counterexample to C3 as stated: on the parse result of `cAliasBytes`,
`HasChar 0x41` is `true` (via the symbol-aliasing retry of `GetGlyphIndex`),
but `GetIndexFromChar 0x41 = -1` and the round trip lands on `0xF01F`,
not `0x41`. -/
theorem C3_counterexample :
    ParseCMAP (some cAliasBytes) noConv = .ok cAliasRes ∧
    FontCharMap.HasChar (mkImplFontCharMap cAliasRes) 0x41 = true ∧
    FontCharMap.GetIndexFromChar (mkImplFontCharMap cAliasRes) 0x41 = -1 ∧
    FontCharMap.GetCharFromIndex (mkImplFontCharMap cAliasRes)
      (FontCharMap.GetIndexFromChar (mkImplFontCharMap cAliasRes) 0x41) = 0xF01F ∧
    decide (FontCharMap.GetCharFromIndex (mkImplFontCharMap cAliasRes)
      (FontCharMap.GetIndexFromChar (mkImplFontCharMap cAliasRes) 0x41) = 0x41) = false := by
  refine ⟨?_, ?_, ?_, ?_, ?_⟩ <;> rfl

/-- Claim C1, amended: when a Character Map has no Glyph Origin data
(null start-glyph array), `GetGlyphIndex` returns `-1` — not `0` — for every
code point; in particular every recoded parse result has its Glyph Origin
data discarded, so its map answers `-1` everywhere (and the symbolic-fallback
map likewise, see the counterexample). -/
theorem C1_glyphIndex_noData :
    (∀ (m : ImplFontCharMap) (c : Nat), m.startGlyphs = none →
      FontCharMap.GetGlyphIndex m c = -1) ∧
    (∀ (ob : Option (List Nat)) (conv : List Nat → List Nat) (r : CmapResult) (c : Nat),
      ParseCMAP ob conv = .ok r → r.recoded = true →
      FontCharMap.GetGlyphIndex (mkImplFontCharMap r) c = -1) := by
  have h1 : ∀ (m : ImplFontCharMap) (c : Nat), m.startGlyphs = none →
      FontCharMap.GetGlyphIndex m c = -1 := by
    intro m c h
    simp only [FontCharMap.GetGlyphIndex, h]
  refine ⟨h1, ?_⟩
  intro ob conv r c hok hrec
  exact h1 (mkImplFontCharMap r) c (ParseCMAP_recoded_noGlyphs ob conv r hok hrec)

/-- Witness for C1: the symbolic-fallback map and the recoded parse of
`recBytes` both return `-1`. -/
theorem C1_witness :
    FontCharMap.GetGlyphIndex (mkImplFontCharMap c9res) 0x41 = -1 ∧
    FontCharMap.GetGlyphIndex (mkImplFontCharMap recRes) 0x41 = -1 :=
  ⟨C1_glyphIndex_noData.1 (mkImplFontCharMap c9res) 0x41 rfl,
   C1_glyphIndex_noData.2 (some recBytes) testConv recRes 0x41 (by rfl) rfl⟩

/-- Counterexample to C1 as stated: the symbolic-fallback map (a map without
Glyph Origin data, produced by a successful parse) yields
`GetGlyphIndex 0x41 = -1`, not the `0` the claim requires. -/
theorem C1_counterexample :
    ParseCMAP (some c9SymBytes) noConv = .ok c9res ∧
    c9res.startGlyphs = none ∧
    FontCharMap.GetGlyphIndex (mkImplFontCharMap c9res) 0x41 = -1 ∧
    decide (FontCharMap.GetGlyphIndex (mkImplFontCharMap c9res) 0x41 = 0) = false := by
  refine ⟨?_, ?_, ?_, ?_⟩ <;> rfl

/-- Claim C2, amended: `getDefaultMap` constructs a fresh `ImplFontCharMap`
instance on every call — two requests for the same kind return two distinct
instances (distinct identity) of equal content — and overwrites the
process-wide global with the newest instance each time. -/
theorem C2_defaultMap_freshEachCall (bSymbols : Bool) (s : DefaultMapState) :
    decide ((getDefaultMap bSymbols ((getDefaultMap bSymbols s).2)).1.1 =
      (getDefaultMap bSymbols s).1.1) = false ∧
    (getDefaultMap bSymbols ((getDefaultMap bSymbols s).2)).1.2 =
      (getDefaultMap bSymbols s).1.2 ∧
    (getDefaultMap bSymbols ((getDefaultMap bSymbols s).2)).2.g_pDefaultImplFontCharMap =
      some (getDefaultMap bSymbols ((getDefaultMap bSymbols s).2)).1 := by
  refine ⟨?_, rfl, rfl⟩
  rw [decide_eq_false_iff_not]
  simp only [getDefaultMap]
  omega

/-- Counterexample to C2 as stated: two consecutive requests for the symbol
default return instances with different identity. -/
theorem C2_counterexample :
    decide ((getDefaultMap true ⟨0, none⟩).1.1 =
      (getDefaultMap true ((getDefaultMap true ⟨0, none⟩).2)).1.1) = false ∧
    (getDefaultMap true ⟨0, none⟩).1.2 =
      (getDefaultMap true ((getDefaultMap true ⟨0, none⟩).2)).1.2 := by decide

/-- Claim C6, amended: every successful parse yields an even-length boundary
sequence, and the default-map and symbolic-fallback boundary lists are
strictly increasing; but a map parsed from a format-4/format-12 subtable is
strictly increasing only if the input's segments/groups arrive in ascending
non-overlapping order, which parsing does not verify (see the
counterexample). -/
theorem C6_boundaries (ob : Option (List Nat)) (conv : List Nat → List Nat)
    (r : CmapResult) (h : ParseCMAP ob conv = .ok r) :
    r.rangeCodes.length % 2 = 0 ∧
    boundariesSorted aDefaultUnicodeRanges = true ∧
    boundariesSorted aDefaultSymbolRanges = true ∧
    boundariesSorted [0x0020, 0x0100, 0xF020, 0xF100] = true :=
  ⟨ParseCMAP_rangeCodes_even ob conv r h, by decide, by decide, by decide⟩

/-- Witness for C6 at the parse of `c10bytes`. -/
theorem C6_witness :
    c10res.rangeCodes.length % 2 = 0 ∧
    boundariesSorted aDefaultUnicodeRanges = true ∧
    boundariesSorted aDefaultSymbolRanges = true ∧
    boundariesSorted [0x0020, 0x0100, 0xF020, 0xF100] = true :=
  C6_boundaries (some c10bytes) noConv c10res (by rfl)

/-- Counterexample to C6 as stated: `c6bytes` — a format-4 table whose two
segments are listed in decreasing order — parses successfully to a map whose
boundary sequence `[0x50, 0x61, 0x10, 0x21]` is not strictly increasing. -/
theorem C6_counterexample :
    ParseCMAP (some c6bytes) noConv = .ok c6res ∧
    c6res.rangeCodes = [0x50, 0x61, 0x10, 0x21] ∧
    boundariesSorted c6res.rangeCodes = false := by
  refine ⟨?_, ?_, ?_⟩ <;> rfl

/-- Claim C7 (confirmed): `ParseCMAP` fails, as an ordinary `.fail` outcome,
whenever the buffer is absent, `nLength < 24`, the version word is nonzero,
or the subtable count is `0` or exceeds `(nLength - 24) / 8`; conversely a
parse that passes header validation (`checkHeader` returns a count)
satisfied all these conditions. -/
theorem C7_headerValidation :
    (∀ conv, ParseCMAP none conv = .error .fail) ∧
    (∀ (b : List Nat) (conv : List Nat → List Nat),
      b.length < 24 ∨ 256 * b.getD 0 0 + b.getD 1 0 ≠ 0 ∨
        256 * b.getD 2 0 + b.getD 3 0 = 0 ∨
        (b.length - 24) / 8 < 256 * b.getD 2 0 + b.getD 3 0 →
      ParseCMAP (some b) conv = .error .fail) ∧
    (∀ (b : List Nat) (n : Nat), checkHeader b = .ok n →
      24 ≤ b.length ∧ 256 * b.getD 0 0 + b.getD 1 0 = 0 ∧
      n = 256 * b.getD 2 0 + b.getD 3 0 ∧ 0 < n ∧ n ≤ (b.length - 24) / 8) := by
  refine ⟨fun conv => rfl, ?_, checkHeader_ok_facts⟩
  intro b conv h
  exact parseBytes_header_fail b conv (checkHeader_fail b h)

/-- Witness for C7: a null buffer, a 1-byte buffer, a bad-version buffer, a
zero-count buffer all fail; the header facts hold for `c10bytes`. -/
theorem C7_witness :
    ParseCMAP none noConv = .error .fail ∧
    ParseCMAP (some [0]) noConv = .error .fail ∧
    ParseCMAP (some (1 :: List.replicate 23 0)) noConv = .error .fail ∧
    ParseCMAP (some (List.replicate 24 0)) noConv = .error .fail ∧
    (24 ≤ c10bytes.length ∧ 256 * c10bytes.getD 0 0 + c10bytes.getD 1 0 = 0 ∧
      1 = 256 * c10bytes.getD 2 0 + c10bytes.getD 3 0 ∧ 0 < 1 ∧
      1 ≤ (c10bytes.length - 24) / 8) :=
  ⟨C7_headerValidation.1 noConv,
   C7_headerValidation.2.1 [0] noConv (by decide),
   C7_headerValidation.2.1 (1 :: List.replicate 23 0) noConv (by decide),
   C7_headerValidation.2.1 (List.replicate 24 0) noConv (by decide),
   C7_headerValidation.2.2 c10bytes 1 (by rfl)⟩

/-- Claim C8 (confirmed): the parser never reads outside
`[bytes, bytes + length)` — the embedded parser, in which every byte fetch is
bounds-guarded, never returns the out-of-bounds marker, for any input and any
converter (offending subtables and segments are skipped or truncated instead)
— and input-derived counts are only ever clamped downward: the effective
format-4 segment count is at most the declared `segCountX2/2 - 1` and the
effective format-12 group count is at most the declared count. -/
theorem C8_boundsSafety :
    (∀ (ob : Option (List Nat)) (conv : List Nat → List Nat),
      (∃ r, ParseCMAP ob conv = .ok r) ∨ ParseCMAP ob conv = .error .fail) ∧
    (∀ len off seg2, f4RangeCount len off seg2 ≤ seg2 / 2 - 1) ∧
    (∀ len off declared, f12RangeCount len off declared ≤ declared) := by
  refine ⟨ParseCMAP_classify, ?_, ?_⟩
  · intro len off seg2
    simp only [f4RangeCount]
    omega
  · intro len off declared
    simp only [f12RangeCount]
    by_cases hd : declared < 2147483648
    · rw [if_pos hd]; omega
    · rw [if_neg hd]; omega

/-- Claim C9 (confirmed): when no subtable produced a range and the symbolic
flag is set, the parse succeeds with exactly the two ranges `[0x20, 0x100)`
and `[0xF020, 0xF100)` and no Glyph Origin data; with the flag clear it
fails.  Concretely: `c9SymBytes` parses to that fallback result, on which
`HasChar 0x41 = true` holds via range containment, while the non-symbolic
`c9NonSymBytes` fails. -/
theorem C9_symbolicFallback :
    (∀ (pairs : List Nat) (glyphs : List Int) (gids : List Nat)
        (recodeFrom : TextEnc) (conv : List Nat → List Nat),
      pairs.length / 2 = 0 →
      cmapFinish pairs glyphs gids true recodeFrom conv =
        .ok { rangeCodes := [0x0020, 0x0100, 0xF020, 0xF100], startGlyphs := none,
              glyphIds := none, symbolic := true, recoded := false } ∧
      cmapFinish pairs glyphs gids false recodeFrom conv = .error .fail) ∧
    ParseCMAP (some c9SymBytes) noConv = .ok c9res ∧
    c9res.startGlyphs = none ∧ c9res.glyphIds = none ∧
    FontCharMap.HasChar (mkImplFontCharMap c9res) 0x41 = true ∧
    ParseCMAP (some c9NonSymBytes) noConv = .error .fail := by
  refine ⟨?_, rfl, rfl, rfl, rfl, rfl⟩
  intro pairs glyphs gids recodeFrom conv h
  constructor
  · simp [cmapFinish, h]
  · simp [cmapFinish, h]

/-- Witness for C9: the fallback branch evaluated at empty accumulators. -/
theorem C9_witness :
    cmapFinish [] [] [0] true TextEnc.unicode noConv =
      .ok { rangeCodes := [0x0020, 0x0100, 0xF020, 0xF100], startGlyphs := none,
            glyphIds := none, symbolic := true, recoded := false } ∧
    cmapFinish [] [] [0] false TextEnc.unicode noConv = .error .fail :=
  C9_symbolicFallback.1 [] [] [0] TextEnc.unicode noConv rfl

/-- Claim C10 (confirmed): the format-4 table with the single segment
`start = end = 0x41`, `delta = 0`, `rangeOffset = 0` parses to exactly the
range `[0x41, 0x42)` with Direct Glyph Origin `(0x41 + 0) mod 65536 = 0x41`,
and on the resulting map `GetGlyphIndex 0x41 = 0x41` and
`HasChar 0x40 = false`. -/
theorem C10_format4_direct :
    ParseCMAP (some c10bytes) noConv = .ok c10res ∧
    c10res.rangeCodes = [0x41, 0x42] ∧
    c10res.startGlyphs = some [0x41] ∧
    FontCharMap.GetGlyphIndex (mkImplFontCharMap c10res) 0x41 = 0x41 ∧
    FontCharMap.HasChar (mkImplFontCharMap c10res) 0x40 = false := by
  refine ⟨?_, ?_, ?_, ?_, ?_⟩ <;> rfl
